import Mathlib

/-!
Verification of the secure-random-byte source of the kinetic-keys repository.

The embedded source files are:
* `src/wasm/dilithium5/src/randombytes.c` — four backends selected by
  preprocessor conditionals: an Emscripten-only linear-congruential test
  generator, a Windows `CryptGenRandom` chunked backend, a Linux
  `getrandom`-syscall loop, and a POSIX `/dev/urandom` device-file loop.
* `src/wasm/dilithium5/src/randombytes_wasm.c` — the Emscripten host-bridge
  backend probing Web-Crypto capabilities.
* `src/wasm/kyber1024/src/randombytes.c` — the same host bridge with the
  Kyber calling convention (`int` status return plus a no-op
  `randombytes_init`).

Buffers are lists of byte values (`List Nat`); kernel/host interactions are
driven by explicit oracles (lists of call results), so every loop is a total
function on its oracle; `none` marks oracle exhaustion (a limit of the model,
never a behaviour of the program).
-/

namespace KineticKeys

/-- Write the bytes `bs` into `buf` at consecutive positions starting at
`pos` (the semantics of copying through a `uint8_t*` cursor). -/
def writeBytes : List Nat → Nat → List Nat → List Nat
  | buf, _, [] => buf
  | buf, pos, b :: bs => writeBytes (buf.set pos b) (pos + 1) bs

/-! ### Insecure test generator (randombytes.c, `__EMSCRIPTEN__` branch, lines 9–18)

`static uint32_t rng_state = 12345;` and one LCG step per output byte. -/

/-- The initial value of `rng_state` (randombytes.c line 9). -/
def rng_state_init : Nat := 12345

/-- One step of `rng_state = rng_state * 1103515245 + 12345` on a `uint32_t`. -/
def lcgStep (s : Nat) : Nat := (s * 1103515245 + 12345) % 2 ^ 32

/-- The emitted byte `(rng_state >> 16) & 0xFF`. -/
def lcgByte (s : Nat) : Nat := (s / 2 ^ 16) % 256

/-- `k` iterations of `lcgStep`. -/
def lcgIter : Nat → Nat → Nat
  | 0, s => s
  | k + 1, s => lcgIter k (lcgStep s)

/-- The byte stream the recurrence produces from state `s`: byte `i`
(0-based) is `lcgByte` of the state after `i + 1` steps. -/
def lcgStream : Nat → Nat → List Nat
  | _, 0 => []
  | s, n + 1 => lcgByte (lcgStep s) :: lcgStream (lcgStep s) n

/-- Loop body of the Emscripten `randombytes` (randombytes.c lines 14–17):
`k` iterations remain, the cursor is at index `i`, the generator state is
`s`; each iteration steps the state and stores the high byte at `out[i]`. -/
def randombytes_lcg : Nat → List Nat → Nat → Nat → List Nat × Nat
  | 0, buf, s, _ => (buf, s)
  | k + 1, buf, s, i =>
      randombytes_lcg k (buf.set i (lcgByte (lcgStep s))) (lcgStep s) (i + 1)

/-- `randombytes(out, outlen)` of the Emscripten branch (randombytes.c
lines 11–18), made explicit in the process-wide `rng_state`: returns the
updated buffer and the new generator state. -/
def randombytes_emscripten (buf : List Nat) (outlen : Nat) (s : Nat) :
    List Nat × Nat :=
  randombytes_lcg outlen buf s 0

/-! ### Basic lemmas about `writeBytes` and the LCG loop -/

theorem writeBytes_length (bs : List Nat) :
    ∀ buf pos, (writeBytes buf pos bs).length = buf.length := by
  induction bs with
  | nil => intro buf pos; rfl
  | cons b bs ih =>
      intro buf pos
      simp [writeBytes, ih, List.length_set]

theorem writeBytes_append (bs cs : List Nat) :
    ∀ buf pos, writeBytes buf pos (bs ++ cs)
      = writeBytes (writeBytes buf pos bs) (pos + bs.length) cs := by
  induction bs with
  | nil => intro buf pos; simp [writeBytes]
  | cons b bs ih =>
      intro buf pos
      simp only [List.cons_append, writeBytes, List.length_cons]
      rw [show pos + (bs.length + 1) = pos + 1 + bs.length by ring]
      exact ih (buf.set pos b) (pos + 1)

theorem writeBytes_getElem_lt (bs : List Nat) :
    ∀ buf pos i, i < pos → (writeBytes buf pos bs)[i]? = buf[i]? := by
  induction bs with
  | nil => intro buf pos i _; rfl
  | cons b bs ih =>
      intro buf pos i hi
      rw [writeBytes, ih _ _ _ (Nat.lt_succ_of_lt hi)]
      exact List.getElem?_set_ne (by omega)

theorem writeBytes_getElem_ge (bs : List Nat) :
    ∀ buf pos i, pos + bs.length ≤ i →
      (writeBytes buf pos bs)[i]? = buf[i]? := by
  induction bs with
  | nil => intro buf pos i _; rfl
  | cons b bs ih =>
      intro buf pos i hi
      simp only [List.length_cons] at hi
      rw [writeBytes, ih _ _ _ (by omega)]
      exact List.getElem?_set_ne (by omega)

theorem writeBytes_getElem_mid (bs : List Nat) :
    ∀ buf pos j, j < bs.length → pos + bs.length ≤ buf.length →
      (writeBytes buf pos bs)[pos + j]? = bs[j]? := by
  induction bs with
  | nil => intro buf pos j hj _; simp at hj
  | cons b bs ih =>
      intro buf pos j hj hlen
      simp only [List.length_cons] at hj hlen
      rw [writeBytes]
      match j with
      | 0 =>
          rw [writeBytes_getElem_lt bs _ _ _ (by omega)]
          simp only [Nat.add_zero]
          rw [List.getElem?_set_self (by omega)]
          simp
      | j + 1 =>
          have := ih (buf.set pos b) (pos + 1) j (by omega)
            (by simp [List.length_set]; omega)
          rw [show pos + (j + 1) = pos + 1 + j by ring, this]
          simp

theorem lcgStream_length (n : Nat) : ∀ s, (lcgStream s n).length = n := by
  induction n with
  | zero => intro s; rfl
  | succ n ih => intro s; simp [lcgStream, ih]

theorem lcgIter_add (m n s : Nat) : lcgIter (m + n) s = lcgIter n (lcgIter m s) := by
  induction m generalizing s with
  | zero => simp [lcgIter]
  | succ m ih =>
      rw [show m + 1 + n = (m + n) + 1 by ring]
      simpa [lcgIter] using ih (lcgStep s)

theorem lcgStream_add (m n : Nat) :
    ∀ s, lcgStream s (m + n) = lcgStream s m ++ lcgStream (lcgIter m s) n := by
  induction m with
  | zero => intro s; simp [lcgStream, lcgIter]
  | succ m ih =>
      intro s
      rw [show m + 1 + n = (m + n) + 1 by ring]
      simp only [lcgStream, List.cons_append]
      rw [ih (lcgStep s)]
      rfl

/-- The LCG loop writes exactly the recurrence's byte stream at the cursor
and ends in the iterated state. -/
theorem randombytes_lcg_spec (k : Nat) :
    ∀ buf s i, randombytes_lcg k buf s i = (writeBytes buf i (lcgStream s k), lcgIter k s) := by
  induction k with
  | zero => intro buf s i; rfl
  | succ k ih =>
      intro buf s i
      rw [randombytes_lcg, ih, lcgStream, lcgIter, writeBytes]

theorem randombytes_emscripten_spec (buf : List Nat) (n s : Nat) :
    randombytes_emscripten buf n s = (writeBytes buf 0 (lcgStream s n), lcgIter n s) :=
  randombytes_lcg_spec n buf s 0

/-! ### The syscall / read retry loop (randombytes.c lines 58–71 and 85–94)

The `getrandom` loop of the Linux backend and the `read` loop of the
device-file backend are the same code shape:

    while(outlen > 0) {
      ret = <kernel call>(out, outlen);
      if(ret == -1 && errno == EINTR) continue;
      else if(ret == -1) abort();
      out += ret; outlen -= ret;
    }

Each kernel call result is an oracle entry: interrupted by a signal,
failed with another errno, or returned some bytes. -/

/-- One kernel-call result: `EINTR`, another error, or `ret` bytes. -/
inductive SysRes where
  | intr : SysRes
  | fail : SysRes
  | ok : List Nat → SysRes
  deriving DecidableEq, Repr

/-- Result of the retry loop: the filled buffer together with the oracle
entries the loop did not consume, or the `abort()` outcome. -/
inductive FillOut where
  | done : List Nat → List SysRes → FillOut
  | aborted : FillOut
  deriving DecidableEq, Repr

/-- The retry loop itself, driven by the oracle of kernel-call results.
`none` means the oracle ran out (a model artefact, not program behaviour). -/
def fill_loop : List SysRes → List Nat → Nat → Nat → Option FillOut
  | os, buf, _, 0 => some (.done buf os)
  | [], _, _, _ + 1 => none
  | .intr :: os, buf, pos, n + 1 => fill_loop os buf pos (n + 1)
  | .fail :: _, _, _, _ + 1 => some .aborted
  | .ok bs :: os, buf, pos, n + 1 =>
      fill_loop os (writeBytes buf pos bs) (pos + bs.length) (n + 1 - bs.length)

/-- Well-formedness of an oracle against a remaining length: every `ok`
chunk the loop would consume is non-empty and no larger than what remains
(the kernel contract `0 < ret ≤ outlen` for a blocking call). -/
def oracleFits : List SysRes → Nat → Bool
  | _, 0 => true
  | [], _ + 1 => true
  | .intr :: os, n + 1 => oracleFits os (n + 1)
  | .fail :: _, _ + 1 => true
  | .ok bs :: os, n + 1 =>
      decide (0 < bs.length ∧ bs.length ≤ n + 1) && oracleFits os (n + 1 - bs.length)

/-- The bytes the loop delivers from the oracle for a remaining length. -/
def oracleBytes : List SysRes → Nat → List Nat
  | _, 0 => []
  | [], _ + 1 => []
  | .intr :: os, n + 1 => oracleBytes os (n + 1)
  | .fail :: _, _ + 1 => []
  | .ok bs :: os, n + 1 => bs ++ oracleBytes os (n + 1 - bs.length)

theorem oracleBytes_zero (os : List SysRes) : oracleBytes os 0 = [] := by
  cases os with
  | nil => rfl
  | cons o os => cases o <;> rfl

/-- A zero-length request returns at once, consuming no oracle entry:
no kernel call is made. -/
theorem fill_loop_zero (os : List SysRes) (buf : List Nat) (pos : Nat) :
    fill_loop os buf pos 0 = some (.done buf os) := by
  cases os with
  | nil => rfl
  | cons o os => cases o <;> rfl

/-- On the success path of a well-formed oracle the loop delivers exactly
the remaining length and writes it contiguously at the cursor. -/
theorem fill_loop_spec (os : List SysRes) :
    ∀ buf pos n buf' rest, oracleFits os n = true →
      fill_loop os buf pos n = some (.done buf' rest) →
      (oracleBytes os n).length = n ∧ buf' = writeBytes buf pos (oracleBytes os n) := by
  induction os with
  | nil =>
      intro buf pos n buf' rest _ hrun
      match n with
      | 0 =>
          simp only [fill_loop, Option.some.injEq, FillOut.done.injEq] at hrun
          obtain ⟨h1, _⟩ := hrun
          exact ⟨rfl, h1.symm⟩
      | _ + 1 => simp [fill_loop] at hrun
  | cons o os ih =>
      intro buf pos n buf' rest hfit hrun
      match n with
      | 0 =>
          rw [fill_loop_zero] at hrun
          simp only [Option.some.injEq, FillOut.done.injEq] at hrun
          obtain ⟨h1, _⟩ := hrun
          rw [oracleBytes_zero]
          exact ⟨rfl, h1.symm⟩
      | n + 1 =>
          match o with
          | .intr =>
              rw [fill_loop] at hrun
              rw [oracleFits] at hfit
              exact ih buf pos (n + 1) buf' rest hfit hrun
          | .fail => simp [fill_loop] at hrun
          | .ok bs =>
              rw [fill_loop] at hrun
              rw [oracleFits, Bool.and_eq_true, decide_eq_true_eq] at hfit
              obtain ⟨⟨hpos, hle⟩, hfit⟩ := hfit
              obtain ⟨hlen, hbuf⟩ :=
                ih (writeBytes buf pos bs) (pos + bs.length) (n + 1 - bs.length)
                  buf' rest hfit hrun
              refine ⟨?_, ?_⟩
              · rw [oracleBytes, List.length_append, hlen]; omega
              · rw [oracleBytes, writeBytes_append]
                exact hbuf

/-! ### Device-file backend (randombytes.c lines 73–95)

    static int fd = -1;
    while(fd == -1) {
      fd = open("/dev/urandom", O_RDONLY);
      if(fd == -1 && errno == EINTR) continue;
      else if(fd == -1) abort();
    }
    while(outlen > 0) { ... read(fd, out, outlen) ... }

The static `fd` is modelled as `Option Nat` (`none` = `-1`); `open` results
come from their own oracle. -/

/-- One `open("/dev/urandom", O_RDONLY)` result. -/
inductive OpenRes where
  | intr : OpenRes
  | fail : OpenRes
  | ok : Nat → OpenRes
  deriving DecidableEq, Repr

/-- The `while(fd == -1)` open loop: retries on `EINTR`, aborts on any
other failure (`some none`), otherwise yields the new descriptor and the
unconsumed open oracle.  `none` = oracle exhausted (model artefact). -/
def open_loop : List OpenRes → Option (Option (Nat × List OpenRes))
  | [] => none
  | .intr :: os => open_loop os
  | .fail :: _ => some none
  | .ok f :: os => some (some (f, os))

/-- Result of a whole device-file `randombytes` call: the filled buffer,
the (still open) descriptor, and the unconsumed open/read oracles. -/
structure DevDone where
  buf : List Nat
  fd : Nat
  orest : List OpenRes
  rrest : List SysRes
  deriving DecidableEq, Repr

/-- `randombytes(out, outlen)` of the device-file backend (randombytes.c
lines 73–95): if `fd` is already open the open loop body never runs;
otherwise the device is opened first (even when `outlen = 0`), then the
read loop fills the buffer.  `some none` = `abort()`,
outer `none` = oracle exhausted. -/
def randombytes_dev (os : List OpenRes) (rs : List SysRes) (fd : Option Nat)
    (buf : List Nat) (pos n : Nat) : Option (Option DevDone) :=
  match fd with
  | some f =>
      match fill_loop rs buf pos n with
      | none => none
      | some .aborted => some none
      | some (.done buf' rrest) => some (some ⟨buf', f, os, rrest⟩)
  | none =>
      match open_loop os with
      | none => none
      | some none => some none
      | some (some (f, orest)) =>
          match fill_loop rs buf pos n with
          | none => none
          | some .aborted => some none
          | some (.done buf' rrest) => some (some ⟨buf', f, orest, rrest⟩)

/-! ### Windows platform-crypto-service backend (randombytes.c lines 36–56)

    if(!CryptAcquireContext(&ctx, ...)) abort();
    while(outlen > 0) {
      len = (outlen > 1048576) ? 1048576 : outlen;
      if(!CryptGenRandom(ctx, len, (BYTE *)out)) abort();
      out += len; outlen -= len;
    }
    if(!CryptReleaseContext(ctx, 0)) abort();

Byte contents come from the opaque service; the model records the service
interaction trace (context acquisition, each generation call with its
requested chunk length, release).  The oracle gives the success of the
acquire call, of each generation call in order, and of the release call. -/

/-- One observable interaction with the Windows cryptographic service. -/
inductive WinEv where
  | acquire : WinEv
  | gen : Nat → WinEv
  | release : WinEv
  deriving DecidableEq, Repr

/-- `len = (outlen > 1048576) ? 1048576 : outlen` (randombytes.c line 45). -/
def winChunk (outlen : Nat) : Nat := if outlen > 1048576 then 1048576 else outlen

/-- The `CryptGenRandom` chunk loop: returns the list of chunk lengths
requested, one service call each.  `some none` = `abort()` on a failed
call; `none` = oracle exhausted. -/
def win_loop : List Bool → Nat → Option (Option (List Nat))
  | _, 0 => some (some [])
  | [], _ + 1 => none
  | g :: gs, n + 1 =>
      if g then
        (win_loop gs (n + 1 - winChunk (n + 1))).map
          (fun r => r.map (fun lens => winChunk (n + 1) :: lens))
      else some none

/-- `randombytes(out, outlen)` of the Windows backend (randombytes.c lines
37–56), as its service-interaction trace.  `some none` = `abort()`. -/
def randombytes_win (acq : Bool) (gs : List Bool) (rel : Bool) (n : Nat) :
    Option (Option (List WinEv)) :=
  if acq then
    match win_loop gs n with
    | none => none
    | some none => some none
    | some (some lens) =>
        if rel then some (some (WinEv.acquire :: lens.map WinEv.gen ++ [WinEv.release]))
        else some none
  else some none

/-! ### Host-bridge backend (randombytes_wasm.c lines 10–33 and the
identical `EM_JS` block of kyber1024's randombytes.c lines 9–32)

    try {
      var array = new Uint8Array(Module.HEAPU8.buffer, buf, len);
      if (typeof crypto !== 'undefined' && crypto.getRandomValues)
        crypto.getRandomValues(array);
      else if (typeof globalThis !== 'undefined' && globalThis.crypto
               && globalThis.crypto.getRandomValues)
        globalThis.crypto.getRandomValues(array);
      else if (typeof require !== 'undefined') {
        const bytes = require('crypto').randomBytes(len);
        array.set(bytes);
      } else throw new Error(...);
    } catch (e) { console.error(...); abort(); }

A host capability is absent, throws when invoked, or fills the view with a
byte list; `array` is a zero-copy view of `len` bytes at the start of the
destination region `buf`. -/

/-- State of one probed host capability. -/
inductive CapResult where
  | absent : CapResult
  | throws : CapResult
  | fills : List Nat → CapResult
  deriving DecidableEq, Repr

/-- The host environment: the three capabilities the bridge probes, in the
order the source probes them. -/
structure HostEnv where
  globalCrypto : CapResult
  globalThisCrypto : CapResult
  requireCrypto : CapResult
  deriving DecidableEq, Repr

/-- Outcome of `crypto_get_random_values`: either the destination region
after the host filled the view, or the fatal path (`console.error` then
`abort()`; the `Bool` records that the diagnostic was logged). -/
inductive BridgeOut where
  | filled : List Nat → BridgeOut
  | fatal : Bool → BridgeOut
  deriving DecidableEq, Repr

/-- `crypto_get_random_values(buf, len)` (randombytes_wasm.c lines 10–33):
probes the three capabilities in source order, uses the first present one,
and converts a missing capability or a thrown exception into the logged
fatal path. -/
def crypto_get_random_values (env : HostEnv) (buf : List Nat) : BridgeOut :=
  match env.globalCrypto with
  | .fills bs => .filled (writeBytes buf 0 bs)
  | .throws => .fatal true
  | .absent =>
      match env.globalThisCrypto with
      | .fills bs => .filled (writeBytes buf 0 bs)
      | .throws => .fatal true
      | .absent =>
          match env.requireCrypto with
          | .fills bs => .filled (writeBytes buf 0 bs)
          | .throws => .fatal true
          | .absent => .fatal true

/-- `randombytes(out, outlen)` of randombytes_wasm.c (lines 35–38): a
direct call to the bridge. -/
def randombytes_wasm (env : HostEnv) (buf : List Nat) : BridgeOut :=
  crypto_get_random_values env buf

/-- `int randombytes(x, xlen)` of kyber1024 (randombytes.c lines 35–39):
calls the bridge and returns status code 0; on the fatal path the process
aborts and nothing is returned (`none`). -/
def randombytes_kyber (env : HostEnv) (buf : List Nat) : Option (List Nat × Int) :=
  match crypto_get_random_values env buf with
  | .filled b => some (b, 0)
  | .fatal _ => none

/-- `randombytes_init` of kyber1024 (randombytes.c lines 42–49): takes a
heap together with the two pointer arguments and the strength argument,
and performs no action (the body only casts the parameters to `void`). -/
def randombytes_init (heap : List Nat) (entropy_input : Nat)
    (personalization_string : Nat) (security_strength : Int) : List Nat :=
  heap

/-- Spec-side definition (§4.4, §9 of the spec): the ordered capability
list, probed in priority order, stopping at the first present one. -/
def firstCapability (env : HostEnv) : Option CapResult :=
  match env.globalCrypto with
  | .absent =>
      match env.globalThisCrypto with
      | .absent =>
          match env.requireCrypto with
          | .absent => none
          | c => some c
      | c => some c
  | c => some c

/-! ### Further supporting lemmas -/

theorem lcgStream_getElem (n : Nat) :
    ∀ s i, i < n → (lcgStream s n)[i]? = some (lcgByte (lcgIter (i + 1) s)) := by
  induction n with
  | zero => intro s i h; omega
  | succ n ih =>
      intro s i h
      match i with
      | 0 => simp [lcgStream, lcgIter]
      | i + 1 =>
          rw [lcgStream, List.getElem?_cons_succ, ih (lcgStep s) i (by omega)]
          rfl

theorem randombytes_emscripten_take (buf : List Nat) (n s : Nat)
    (h : n ≤ buf.length) :
    ((randombytes_emscripten buf n s).1).take n = lcgStream s n := by
  rw [randombytes_emscripten_spec]
  apply List.ext_getElem?
  intro i
  rw [List.getElem?_take]
  by_cases hi : i < n
  · rw [if_pos hi]
    have := writeBytes_getElem_mid (lcgStream s n) buf 0 i
      (by rw [lcgStream_length]; exact hi)
      (by rw [lcgStream_length]; omega)
    simpa using this
  · rw [if_neg hi]
    symm
    apply List.getElem?_eq_none
    rw [lcgStream_length]
    omega

theorem win_loop_zero (gs : List Bool) : win_loop gs 0 = some (some []) := by
  cases gs with
  | nil => rfl
  | cons g gs => cases g <;> rfl

theorem winChunk_pos (n : Nat) (h : 0 < n) : 0 < winChunk n := by
  unfold winChunk; split <;> omega

theorem winChunk_le_ceiling (n : Nat) : winChunk n ≤ 1048576 ∨ winChunk n = n := by
  unfold winChunk; split <;> omega

theorem winChunk_le (n : Nat) : winChunk n ≤ n := by
  unfold winChunk; split <;> omega

/-- Every chunk list the Windows generation loop produces sums to the
requested length and every chunk obeys the per-call ceiling. -/
theorem win_loop_sum (gs : List Bool) :
    ∀ n lens, win_loop gs n = some (some lens) →
      lens.sum = n ∧ ∀ l ∈ lens, 0 < l ∧ l ≤ 1048576 := by
  induction gs with
  | nil =>
      intro n lens h
      match n with
      | 0 =>
          rw [win_loop_zero] at h
          simp only [Option.some.injEq] at h
          subst h
          simp
      | n + 1 => simp [win_loop] at h
  | cons g gs ih =>
      intro n lens h
      match n with
      | 0 =>
          rw [win_loop_zero] at h
          simp only [Option.some.injEq] at h
          subst h
          simp
      | n + 1 =>
          cases g with
          | false => simp [win_loop] at h
          | true =>
              rw [win_loop, if_pos rfl] at h
              cases h' : win_loop gs (n + 1 - winChunk (n + 1)) with
              | none => rw [h'] at h; simp at h
              | some r =>
                  cases r with
                  | none => rw [h'] at h; simp at h
                  | some lens' =>
                      rw [h'] at h
                      simp only [Option.map_some', Option.some.injEq] at h
                      subst h
                      obtain ⟨hsum, hbound⟩ := ih (n + 1 - winChunk (n + 1)) lens' h'
                      constructor
                      · rw [List.sum_cons, hsum]
                        have := winChunk_le (n + 1)
                        omega
                      · intro l hl
                        rcases List.mem_cons.mp hl with hl | hl
                        · subst hl
                          refine ⟨winChunk_pos _ (by omega), ?_⟩
                          unfold winChunk; split <;> omega
                        · exact hbound l hl

/-! ### The claims -/

/-- C1: a fill call that returns successfully has written exactly the
requested number of bytes, each position of the requested range overwritten
exactly once with backend output and the rest of the buffer untouched, and
no partial fill is observable: shown for the test-generator loop, for the
getrandom/read retry loop shared by the OS-syscall and device-file
backends, and for the Windows chunk loop (chunk lengths sum to the
request). -/
theorem C1_fill_exact_length :
    (∀ buf n s, n ≤ buf.length →
       (randombytes_emscripten buf n s).1.length = buf.length ∧
       (∀ i, i < n → (randombytes_emscripten buf n s).1[i]? = (lcgStream s n)[i]?) ∧
       (∀ i, n ≤ i → (randombytes_emscripten buf n s).1[i]? = buf[i]?))
  ∧ (∀ os buf pos n buf' rest, oracleFits os n = true →
       fill_loop os buf pos n = some (.done buf' rest) →
       (oracleBytes os n).length = n ∧
       buf' = writeBytes buf pos (oracleBytes os n) ∧
       buf'.length = buf.length ∧
       (∀ i, i < pos ∨ pos + n ≤ i → buf'[i]? = buf[i]?))
  ∧ (∀ gs n lens, win_loop gs n = some (some lens) → lens.sum = n) := by
  refine ⟨?_, ?_, ?_⟩
  · intro buf n s hn
    rw [randombytes_emscripten_spec]
    refine ⟨writeBytes_length _ _ _, ?_, ?_⟩
    · intro i hi
      have := writeBytes_getElem_mid (lcgStream s n) buf 0 i
        (by rw [lcgStream_length]; exact hi) (by rw [lcgStream_length]; omega)
      simpa using this
    · intro i hi
      apply writeBytes_getElem_ge
      rw [lcgStream_length]
      omega
  · intro os buf pos n buf' rest hfit hrun
    obtain ⟨hlen, hbuf⟩ := fill_loop_spec os buf pos n buf' rest hfit hrun
    refine ⟨hlen, hbuf, ?_, ?_⟩
    · rw [hbuf]
      exact writeBytes_length _ _ _
    · intro i hi
      rw [hbuf]
      rcases hi with hi | hi
      · exact writeBytes_getElem_lt _ _ _ _ hi
      · exact writeBytes_getElem_ge _ _ _ _ (by rw [hlen]; omega)
  · intro gs n lens h
    exact (win_loop_sum gs n lens h).1

theorem C1_fill_exact_length_witness :
    (randombytes_emscripten [0, 0] 2 12345).1[0]? = (lcgStream 12345 2)[0]?
  ∧ (oracleBytes [SysRes.ok [7, 9]] 2).length = 2 :=
  ⟨(C1_fill_exact_length.1 [0, 0] 2 12345 (by decide)).2.1 0 (by decide),
   (C1_fill_exact_length.2.1 [SysRes.ok [7, 9]] [0, 0] 0 2
      (writeBytes [0, 0] 0 [7, 9]) [] (by decide) (by decide)).1⟩

/-- C2: the i-th output byte of the insecure test generator equals bits
16–23 of the state after i+1 applications of the recurrence
`s' = s * 1103515245 + 12345 (mod 2^32)`, and from the fresh process state
12345 the first 16 bytes are exactly the stated reference sequence. -/
theorem C2_lcg_byte_values :
    (∀ buf n s i, i < n → n ≤ buf.length →
       (randombytes_emscripten buf n s).1[i]? = some (lcgByte (lcgIter (i + 1) s)))
  ∧ (randombytes_emscripten (List.replicate 16 0) 16 rng_state_init).1
      = [220, 4, 101, 170, 31, 173, 29, 90, 218, 229, 172, 27, 30, 95, 19, 112] := by
  constructor
  · intro buf n s i hi hn
    rw [randombytes_emscripten_spec]
    have h1 := writeBytes_getElem_mid (lcgStream s n) buf 0 i
      (by rw [lcgStream_length]; exact hi) (by rw [lcgStream_length]; omega)
    rw [lcgStream_getElem n s i hi] at h1
    simpa using h1
  · decide

theorem C2_lcg_byte_values_witness :
    (randombytes_emscripten [0, 0, 0] 3 12345).1[1]? = some (lcgByte (lcgIter 2 12345)) :=
  C2_lcg_byte_values.1 [0, 0, 0] 3 12345 1 (by decide) (by decide)

/-- C3: in the OS-syscall and device-file read loops a signal interruption
retries the same remaining range (no byte skipped or duplicated), any other
failure aborts at once, and a successful call advances the cursor and
shrinks the remaining length by exactly the number of bytes returned. -/
theorem C3_retry_abort_advance :
    ∀ os buf pos n, 0 < n →
      fill_loop (SysRes.intr :: os) buf pos n = fill_loop os buf pos n
      ∧ fill_loop (SysRes.fail :: os) buf pos n = some FillOut.aborted
      ∧ ∀ bs, fill_loop (SysRes.ok bs :: os) buf pos n
          = fill_loop os (writeBytes buf pos bs) (pos + bs.length) (n - bs.length) := by
  intro os buf pos n hn
  match n with
  | n + 1 => exact ⟨rfl, rfl, fun bs => rfl⟩

theorem C3_retry_abort_advance_witness :
    fill_loop [SysRes.intr] [0] 0 1 = fill_loop [] [0] 0 1 :=
  (C3_retry_abort_advance [] [0] 0 1 (by decide)).1

/-- C4: the Windows platform-crypto-service backend services every request
in chunks of at most 1,048,576 bytes, a request of 1,048,577 bytes takes
exactly two service calls (1,048,576 bytes then 1 byte), and a failed chunk
aborts with no retry. -/
theorem C4_win_chunking :
    randombytes_win true [true, true] true 1048577
      = some (some [WinEv.acquire, WinEv.gen 1048576, WinEv.gen 1, WinEv.release])
  ∧ (∀ gs n lens, win_loop gs n = some (some lens) → ∀ l ∈ lens, l ≤ 1048576)
  ∧ (∀ gs rel n, 0 < n → randombytes_win true (false :: gs) rel n = some none) := by
  refine ⟨by decide, ?_, ?_⟩
  · intro gs n lens h l hl
    exact ((win_loop_sum gs n lens h).2 l hl).2
  · intro gs rel n hn
    match n with
    | n + 1 =>
        have hl : win_loop (false :: gs) (n + 1) = some none := by
          rw [win_loop]
          simp
        rw [randombytes_win, if_pos rfl, hl]

theorem C4_win_chunking_witness :
    randombytes_win true [false] true 5 = some none :=
  C4_win_chunking.2.2 [] true 5 (by decide)

/-- C5 counterexample: a zero-length fill is not free of backend
interaction.  On the Windows backend it still acquires and releases the
service context, and on the device-file backend with an unopened handle it
still opens the entropy device, changing the handle from unopened to open
and consuming the open result. -/
theorem C5_counterexample :
    randombytes_win true [] true 0 = some (some [WinEv.acquire, WinEv.release])
  ∧ ([WinEv.acquire, WinEv.release] : List WinEv) ≠ []
  ∧ randombytes_dev [OpenRes.ok 3] [] none [] 0 0 = some (some ⟨[], 3, [], []⟩)
  ∧ (Option.some 3 : Option Nat) ≠ none := by
  refine ⟨by decide, by decide, by decide, by decide⟩

/-- C5 (amended): a zero-length fill writes nothing and succeeds; the
test generator leaves the state word unchanged, the syscall/read loop
performs no kernel call, a device-file call with an open handle touches
nothing, but a first device-file call still opens the device, the Windows
backend still acquires and releases its context, and the host bridge still
makes its one host call (here with an empty view, leaving the buffer
unchanged when the first capability is present). -/
theorem C5_zero_length :
    (∀ buf s, randombytes_emscripten buf 0 s = (buf, s))
  ∧ (∀ os buf pos, fill_loop os buf pos 0 = some (FillOut.done buf os))
  ∧ (∀ os rs f buf pos, randombytes_dev os rs (some f) buf pos 0 = some (some ⟨buf, f, os, rs⟩))
  ∧ (∀ orest rs f buf pos, randombytes_dev (OpenRes.ok f :: orest) rs none buf pos 0
        = some (some ⟨buf, f, orest, rs⟩))
  ∧ (∀ gs, randombytes_win true gs true 0 = some (some [WinEv.acquire, WinEv.release]))
  ∧ (∀ env buf, env.globalCrypto = CapResult.fills [] →
       randombytes_wasm env buf = BridgeOut.filled buf) := by
  refine ⟨fun buf s => rfl, fill_loop_zero, ?_, ?_, ?_, ?_⟩
  · intro os rs f buf pos
    simp only [randombytes_dev]
    rw [fill_loop_zero]
  · intro orest rs f buf pos
    simp only [randombytes_dev, open_loop]
    rw [fill_loop_zero]
  · intro gs
    rw [randombytes_win, if_pos rfl, win_loop_zero]
    rfl
  · intro env buf h
    rw [randombytes_wasm, crypto_get_random_values, h]
    rfl

theorem C5_zero_length_witness :
    randombytes_wasm ⟨CapResult.fills [], CapResult.absent, CapResult.absent⟩ [4, 5]
      = BridgeOut.filled [4, 5] :=
  C5_zero_length.2.2.2.2.2 ⟨CapResult.fills [], CapResult.absent, CapResult.absent⟩ [4, 5] rfl

/-- C6: the host bridge probes its three capabilities in source priority
order, uses the first present one (copying its bytes into the zero-copy
view), and when no capability is present or the chosen one throws it takes
the logged fatal path, never returning a filled buffer. -/
theorem C6_bridge_probing :
    (∀ env buf, crypto_get_random_values env buf =
        match firstCapability env with
        | none => BridgeOut.fatal true
        | some CapResult.throws => BridgeOut.fatal true
        | some CapResult.absent => BridgeOut.fatal true
        | some (CapResult.fills bs) => BridgeOut.filled (writeBytes buf 0 bs))
  ∧ (∀ env buf, (firstCapability env = none ∨ firstCapability env = some CapResult.throws) →
       ∀ b, crypto_get_random_values env buf ≠ BridgeOut.filled b) := by
  constructor
  · intro env buf
    obtain ⟨g, t, r⟩ := env
    cases g <;> cases t <;> cases r <;> rfl
  · intro env buf h b
    obtain ⟨g, t, r⟩ := env
    cases g <;> cases t <;> cases r <;>
      simp_all [crypto_get_random_values, firstCapability]

theorem C6_bridge_probing_witness :
    crypto_get_random_values ⟨CapResult.absent, CapResult.absent, CapResult.absent⟩ [0, 0]
      ≠ BridgeOut.filled [5, 5] :=
  C6_bridge_probing.2 ⟨CapResult.absent, CapResult.absent, CapResult.absent⟩ [0, 0]
    (Or.inl rfl) [5, 5]

/-- C7: the entropy-device handle is opened at most once per process — a
call that finds it open reuses it unchanged and consumes no open result, an
interrupted open is retried, any other open failure aborts, a first
successful open installs exactly the descriptor the open returned, and no
call ever closes the handle. -/
theorem C7_device_handle_lifecycle :
    (∀ os rs f buf pos n r, randombytes_dev os rs (some f) buf pos n = some (some r) →
       r.fd = f ∧ r.orest = os)
  ∧ (∀ os, open_loop (OpenRes.intr :: os) = open_loop os)
  ∧ (∀ os rs buf pos n, randombytes_dev (OpenRes.fail :: os) rs none buf pos n = some none)
  ∧ (∀ os rs f buf pos n r,
       randombytes_dev (OpenRes.ok f :: os) rs none buf pos n = some (some r) →
       r.fd = f ∧ r.orest = os) := by
  refine ⟨?_, fun os => rfl, fun os rs buf pos n => rfl, ?_⟩
  · intro os rs f buf pos n r h
    simp only [randombytes_dev] at h
    cases h' : fill_loop rs buf pos n with
    | none => rw [h'] at h; simp at h
    | some fo =>
        cases fo with
        | aborted => rw [h'] at h; simp at h
        | done buf' rrest =>
            rw [h'] at h
            simp only [Option.some.injEq] at h
            rw [← h]
            exact ⟨rfl, rfl⟩
  · intro os rs f buf pos n r h
    simp only [randombytes_dev, open_loop] at h
    cases h' : fill_loop rs buf pos n with
    | none => rw [h'] at h; simp at h
    | some fo =>
        cases fo with
        | aborted => rw [h'] at h; simp at h
        | done buf' rrest =>
            rw [h'] at h
            simp only [Option.some.injEq] at h
            rw [← h]
            exact ⟨rfl, rfl⟩

theorem C7_device_handle_lifecycle_witness :
    (⟨[], 5, [], []⟩ : DevDone).fd = 5 ∧ (⟨[], 5, [], []⟩ : DevDone).orest = [] :=
  C7_device_handle_lifecycle.1 [] [] 5 [] 0 0 ⟨[], 5, [], []⟩ (by decide)

/-- C8: the Kyber-convention fill returns status code 0 on success, and
`randombytes_init` performs no action — it changes no state and its result
is independent of all of its arguments. -/
theorem C8_kyber_status_and_init :
    (∀ env buf b r, randombytes_kyber env buf = some (b, r) → r = 0)
  ∧ (∀ heap e p s, randombytes_init heap e p s = heap)
  ∧ (∀ heap e p s e' p' s', randombytes_init heap e p s = randombytes_init heap e' p' s') := by
  refine ⟨?_, fun _ _ _ _ => rfl, fun _ _ _ _ _ _ _ => rfl⟩
  intro env buf b r h
  rw [randombytes_kyber] at h
  cases hc : crypto_get_random_values env buf with
  | filled b' =>
      rw [hc] at h
      simp only [Option.some.injEq, Prod.mk.injEq] at h
      exact h.2.symm
  | fatal l => rw [hc] at h; simp at h

theorem C8_kyber_status_and_init_witness :
    (0 : Int) = 0 ∧ randombytes_init [1, 2] 0 0 0 = [1, 2] :=
  ⟨C8_kyber_status_and_init.1 ⟨CapResult.fills [9], CapResult.absent, CapResult.absent⟩
      [0] (writeBytes [0] 0 [9]) 0 rfl,
   C8_kyber_status_and_init.2.1 [1, 2] 0 0 0⟩

/-- C9: the bytes a test-generator fill writes never depend on the
destination's prior contents — from the same state and length, two runs on
arbitrarily different buffers write the identical byte sequence and end in
the identical generator state. -/
theorem C9_no_read_of_destination :
    ∀ s n buf1 buf2, n ≤ buf1.length → n ≤ buf2.length →
      (randombytes_emscripten buf1 n s).2 = (randombytes_emscripten buf2 n s).2
      ∧ ((randombytes_emscripten buf1 n s).1).take n
          = ((randombytes_emscripten buf2 n s).1).take n := by
  intro s n b1 b2 h1 h2
  constructor
  · rw [randombytes_emscripten_spec, randombytes_emscripten_spec]
  · rw [randombytes_emscripten_take b1 n s h1, randombytes_emscripten_take b2 n s h2]

theorem C9_no_read_of_destination_witness :
    ((randombytes_emscripten [1, 2] 2 12345).1).take 2
      = ((randombytes_emscripten [9, 9] 2 12345).1).take 2 :=
  (C9_no_read_of_destination 12345 2 [1, 2] [9, 9] (by decide) (by decide)).2

/-- C10: the test generator is a stream — filling m bytes and then n bytes
from the resulting state yields, as the concatenation of the two outputs,
the same m+n bytes and the same final state as one fill of m+n bytes. -/
theorem C10_stream_composition :
    ∀ s m n bufA bufB bufC, m ≤ bufA.length → n ≤ bufB.length → m + n ≤ bufC.length →
      (randombytes_emscripten bufB n (randombytes_emscripten bufA m s).2).2
        = (randombytes_emscripten bufC (m + n) s).2
      ∧ ((randombytes_emscripten bufA m s).1).take m
          ++ ((randombytes_emscripten bufB n ((randombytes_emscripten bufA m s).2)).1).take n
        = ((randombytes_emscripten bufC (m + n) s).1).take (m + n) := by
  intro s m n bA bB bC hA hB hC
  have hs : (randombytes_emscripten bA m s).2 = lcgIter m s := by
    rw [randombytes_emscripten_spec]
  constructor
  · rw [hs, randombytes_emscripten_spec, randombytes_emscripten_spec]
    exact (lcgIter_add m n s).symm
  · rw [hs, randombytes_emscripten_take bA m s hA,
      randombytes_emscripten_take bB n (lcgIter m s) hB,
      randombytes_emscripten_take bC (m + n) s hC]
    exact (lcgStream_add m n s).symm

theorem C10_stream_composition_witness :
    ((randombytes_emscripten [0] 1 12345).1).take 1
        ++ ((randombytes_emscripten [0, 0] 2 ((randombytes_emscripten [0] 1 12345).2)).1).take 2
      = ((randombytes_emscripten [0, 0, 0] 3 12345).1).take 3 :=
  (C10_stream_composition 12345 1 2 [0] [0, 0] [0, 0, 0] (by decide) (by decide) (by decide)).2

end KineticKeys
